import Mathlib

/-!
# Verification of the silo delimiter-based archive engine

This file gives a shallow embedding of the core library of the repository
(package `silo`; the older `tortise_go` variant of the same code differs only
in `detectDelimiter`'s character class, where the current package implements
the Unicode-permissive rule).  Strings are modelled as lists of characters
(`Str`), which matches Go string semantics at the rune level for all the
operations used by this code.  Fallible Go functions returning
`(T, error)` are modelled as `Except Str T`, with error messages embedded as
the exact formatted strings the Go code produces.  The mutation of the
receiver in `WriteTo` is modelled by returning the updated document.

Paths through the host filesystem (`filepath.IsAbs`) are modelled with the
Unix convention (a path is absolute iff it starts with `/`), matching the
platform the repository targets.
-/

set_option linter.unusedVariables false

abbrev Str := List Char

instance {e a : Type} [DecidableEq e] [DecidableEq a] : DecidableEq (Except e a) :=
  fun x y =>
    match x, y with
    | .ok u, .ok v =>
      if h : u = v then isTrue (by rw [h]) else isFalse (by simp [h])
    | .error u, .error v =>
      if h : u = v then isTrue (by rw [h]) else isFalse (by simp [h])
    | .ok _, .error _ => isFalse (by simp)
    | .error _, .ok _ => isFalse (by simp)

/-! ## Go string primitives used by the library -/

/-- The character set of Go's `unicode.IsSpace` (the White_Space property):
the Latin-1 spaces `\t \n \v \f \r ' ' U+0085 U+00A0` plus the spaces above
Latin-1.  `strings.TrimSpace` trims exactly these characters. -/
def goSpaceChars : List Char :=
  [' ', '\t', '\n', '\x0b', '\x0c', '\r', '\u0085', '\u00A0', '\u1680',
   '\u2000', '\u2001', '\u2002', '\u2003', '\u2004', '\u2005', '\u2006',
   '\u2007', '\u2008', '\u2009', '\u200A', '\u2028', '\u2029', '\u202F',
   '\u205F', '\u3000']

def goIsSpace (c : Char) : Bool := goSpaceChars.contains c

/-- Leading-whitespace trim (the first half of `strings.TrimSpace`). -/
def trimLeft (s : Str) : Str := s.dropWhile goIsSpace

/-- Trailing-whitespace trim (the second half of `strings.TrimSpace`). -/
def trimRight : Str → Str
  | [] => []
  | c :: cs =>
    match trimRight cs with
    | [] => if goIsSpace c then [] else [c]
    | r => c :: r

/-- Go `strings.TrimSpace`. -/
def trimSpace (s : Str) : Str := trimLeft (trimRight s)

/-- Go `strings.Contains s sub` (substring occurrence anywhere). -/
def containsSub (sub : Str) : Str → Bool
  | [] => sub.isEmpty
  | c :: cs => sub.isPrefixOf (c :: cs) || containsSub sub cs

/-- Go `strings.Split s (String.singleton sep)`: splitting on a one-character
separator; always returns at least one (possibly empty) part. -/
def goSplit (sep : Char) : Str → List Str
  | [] => [[]]
  | c :: cs =>
    match goSplit sep cs with
    | [] => [[]]
    | h :: t => if c = sep then [] :: h :: t else (c :: h) :: t

/-- Go `strings.Join parts (String.singleton '\n')`. -/
def joinNl : List Str → Str
  | [] => []
  | [x] => x
  | x :: xs => x ++ '\n' :: joinNl xs

/-- `dropCR` from `bufio.ScanLines`: drop one trailing carriage return. -/
def dropCR (s : Str) : Str := if s.getLast? = some '\r' then s.dropLast else s

/-- The sequence of tokens produced by a `bufio.Scanner` with the default
`ScanLines` split function: split on `'\n'`, drop one `'\r'` before each
newline, keep a final unterminated token, and produce nothing on empty
input. -/
def scanLines (s : Str) : List Str :=
  match s with
  | [] => []
  | _ :: _ =>
    let parts := goSplit '\n' s
    let parts := if parts.getLast? = some [] then parts.dropLast else parts
    parts.map dropCR

/-- Go `strings.ReplaceAll line "\r\n" "\n"`: left-to-right replacement of
each (non-overlapping) CRLF pair by a single LF. -/
def replaceCRLF : Str → Str
  | [] => []
  | [c] => [c]
  | c :: d :: rest =>
    if c = '\r' ∧ d = '\n' then '\n' :: replaceCRLF rest
    else c :: replaceCRLF (d :: rest)

/-- Go `strings.ReplaceAll line "\r" "\n"`. -/
def replaceCR (s : Str) : Str := s.map fun c => if c = '\r' then '\n' else c

/-- The per-line normalization performed in the parser's scan loop. -/
def normalizeLine (s : Str) : Str := replaceCR (replaceCRLF s)

def natStr (n : Nat) : Str := (Nat.repr n).data

/-! ## The silo package -/

structure SiloFile where
  Path : Str
  Content : Str
deriving DecidableEq, Repr

structure SiloDocument where
  Files : List SiloFile := []
  Delimiter : Str := []
deriving DecidableEq, Repr

/-- `isValidDelimiterChar` from the source: any character except ASCII space
(0x20), horizontal tab (0x09), line feed (0x0A), carriage return (0x0D). -/
def isValidDelimiterChar (c : Char) : Bool :=
  !(c = ' ' || c = '\t' || c = '\n' || c = '\r')

def emptyLineMsg : Str := "empty line cannot contain delimiter".data
def invalidDeclMsg : Str := "invalid file declaration format".data
def emptyPathMsg : Str := "empty path".data

/-- `detectDelimiter` from the source: trim the line, consume the maximal
run of delimiter characters, require a single ASCII space, and return the
run together with the trimmed remainder as the path. -/
def detectDelimiter (line : Str) : Except Str (Str × Str) :=
  let l := trimSpace line
  if l.isEmpty then .error emptyLineMsg
  else
    let delim := l.takeWhile isValidDelimiterChar
    let rest := l.dropWhile isValidDelimiterChar
    if delim.isEmpty then .error invalidDeclMsg
    else
      match rest with
      | ' ' :: after =>
        let path := trimSpace after
        if path.isEmpty then .error emptyPathMsg else .ok (delim, path)
      | _ => .error invalidDeclMsg

def invalidPathMsg (p : Str) : Str := "invalid path: ".data ++ p
def absPathMsg (p : Str) : Str := "absolute paths not allowed: ".data ++ p
def parentRefMsg (p : Str) : Str :=
  "parent directory references not allowed: ".data ++ p
def nullByteMsg (p : Str) : Str := "null character in path: ".data ++ p

/-- `filepath.IsAbs` under the Unix path convention. -/
def isAbsPath : Str → Bool
  | '/' :: _ => true
  | _ => false

/-- `validatePath` from the source. -/
def validatePath (p : Str) : Except Str Unit :=
  if p = [] || p = ['.'] then .error (invalidPathMsg p)
  else if isAbsPath p then .error (absPathMsg p)
  else if containsSub ['.', '.'] p then .error (parentRefMsg p)
  else if p.contains '\x00' then .error (nullByteMsg p)
  else .ok ()

/-- `isBlankLine` from the source. -/
def isBlankLine (s : Str) : Bool := (trimSpace s).isEmpty

/-- Closing out a record's content: join the buffered lines with `'\n'` and
append a trailing `'\n'` when the joined content is non-empty. -/
def closeContent (buf : List Str) : Str :=
  let c := joinNl buf
  if c.isEmpty then [] else c ++ ['\n']

def detectErrAt (n : Nat) (e : Str) : Str :=
  "error detecting delimiter on line ".data ++ natStr n ++ ": ".data ++ e
def pathErrAt (n : Nat) (e : Str) : Str :=
  "invalid path on line ".data ++ natStr n ++ ": ".data ++ e
def dupPathMsg (p : Str) : Str := "duplicate path: ".data ++ p

/-- The record-scanning loop of `ParseSiloFile`.  `lineNo` is the 1-based
number of the next line, used only in error messages; `seen` is the set of
paths seen so far (Go uses a map, modelled here as a list). -/
def parseLoop (delim : Str) (seen : List Str) (curPath : Str) (buf : List Str)
    (acc : List SiloFile) (lineNo : Nat) : List Str → Except Str SiloDocument
  | [] => .ok ⟨acc ++ [⟨curPath, closeContent buf⟩], delim⟩
  | line :: rest =>
    if (delim ++ [' ']).isPrefixOf line then
      let acc' := acc ++ [⟨curPath, closeContent buf⟩]
      let path := trimSpace (line.drop (delim.length + 1))
      match validatePath path with
      | .error e => .error (pathErrAt lineNo e)
      | .ok _ =>
        if seen.contains path then .error (dupPathMsg path)
        else parseLoop delim (path :: seen) path [] acc' (lineNo + 1) rest
    else parseLoop delim seen curPath (buf ++ [line]) acc (lineNo + 1) rest

/-- The body of `ParseSiloFile` after line collection: skip leading blank
lines, detect the delimiter on the first non-blank line, validate the first
path, and run the record-scanning loop. -/
def parseStart (lines : List Str) : Except Str SiloDocument :=
  let k := (lines.takeWhile isBlankLine).length
  match lines.drop k with
  | [] => .ok ⟨[], []⟩
  | first :: rest =>
    match detectDelimiter first with
    | .error e => .error (detectErrAt (k + 1) e)
    | .ok (delim, firstPath) =>
      match validatePath firstPath with
      | .error e => .error (pathErrAt (k + 1) e)
      | .ok _ =>
        if ([] : List Str).contains firstPath then .error (dupPathMsg firstPath)
        else parseLoop delim [firstPath] firstPath [] [] (k + 2) rest

/-- `ParseSiloFile` from the source: collect scanner lines, normalize each
line, then parse. -/
def ParseSiloFile (input : Str) : Except Str SiloDocument :=
  parseStart ((scanLines input).map normalizeLine)

/-! ## The safe-delimiter selector -/

def baseChars : List Char := ['>', '=', '*', '-']

/-- The 200 candidate delimiters built by `findSafeDelimiter`: each base
character repeated at each length from 1 to 50. -/
def candidatesList : List Str :=
  baseChars.flatMap fun c => (List.range' 1 50).map fun len => List.replicate len c

/-- One content line eliminates candidate `d` when it is non-empty and
starts with `d` followed by one space (the `line == ""` lines are skipped
by the Go loop). -/
def lineCollidesWith (d : Str) (line : Str) : Bool :=
  !line.isEmpty && (d ++ [' ']).isPrefixOf line

/-- Candidate elimination over a whole document: some content line of some
record collides with `d`. -/
def docCollides (doc : SiloDocument) (d : Str) : Bool :=
  doc.Files.any fun f => (goSplit '\n' f.Content).any fun line => lineCollidesWith d line

def noSafeDelimiterMsg : Str :=
  "unable to find safe delimiter: all delimiters up to 50 characters conflict with file content".data
def internalNoDelimiterMsg : Str :=
  "internal error: no delimiter found despite having candidates".data

/-- `findSafeDelimiter` from the source: keep the candidates no content
line collides with, fail when none survive, otherwise take the smallest
surviving length and the first base character (in preference order) whose
repetition at that length survives. -/
def findSafeDelimiter (doc : SiloDocument) : Except Str Str :=
  let survivors := candidatesList.filter fun d => !docCollides doc d
  if survivors.isEmpty then .error noSafeDelimiterMsg
  else
    let shortest := survivors.foldl (fun m d => min m d.length) 51
    match baseChars.find? (fun c => survivors.contains (List.replicate shortest c)) with
    | some c => .ok (List.replicate shortest c)
    | none =>
      match survivors.find? (fun d => d.length = shortest) with
      | some d => .ok d
      | none => .error internalNoDelimiterMsg

/-! ## The document writer -/

/-- Go `%q` on the delimiter tokens appearing in `WriteTo`'s error messages
(plain quoting; the tokens involved contain no characters `%q` escapes). -/
def goQuote (s : Str) : Str := '"' :: s ++ ['"']

def collisionSuggestMsg (delim path alt : Str) : Str :=
  "delimiter ".data ++ goQuote delim ++ " conflicts with content in file ".data ++
    path ++ ". Try using auto-generated delimiter ".data ++ goQuote alt ++
    " (remove -d flag) or choose a different delimiter".data

def collisionNoSafeMsg (delim path autoErr : Str) : Str :=
  "delimiter ".data ++ goQuote delim ++ " conflicts with content in file ".data ++
    path ++ ", and no safe delimiter could be auto-generated: ".data ++ autoErr

/-- The collision scan of `WriteTo` over one record's content lines. -/
def fileHasCollision (delim : Str) (f : SiloFile) : Bool :=
  (goSplit '\n' f.Content).any fun line => lineCollidesWith delim line

/-- The collision scan of `WriteTo`: the first record (in order) one of
whose content lines starts with `delim` plus a space. -/
def findCollidingFile (delim : Str) : List SiloFile → Option SiloFile
  | [] => none
  | f :: fs => if fileHasCollision delim f then some f else findCollidingFile delim fs

/-- Content as emitted by `WriteTo`: a trailing newline is appended when
the content is non-empty and does not already end with one. -/
def normContent (c : Str) : Str :=
  if !(c.getLast? = some '\n') && !c.isEmpty then c ++ ['\n'] else c

/-- One record as emitted by `WriteTo`: the declaration line followed by
the (newline-normalized) content. -/
def emitFile (delim : Str) (f : SiloFile) : Str :=
  delim ++ ' ' :: f.Path ++ '\n' :: normContent f.Content

def writeOutput (delim : Str) (files : List SiloFile) : Str :=
  (files.map (emitFile delim)).flatten

/-- `WriteTo` from the source.  The Go method mutates its receiver when it
auto-selects a delimiter; the returned document is the receiver's state
after the call, and the returned `Except` carries the bytes written to the
sink (writing to the in-memory sink cannot fail). -/
def WriteTo (doc : SiloDocument) : SiloDocument × Except Str Str :=
  if doc.Delimiter.isEmpty then
    match findSafeDelimiter doc with
    | .error e => (doc, .error e)
    | .ok delim => (⟨doc.Files, delim⟩, .ok (writeOutput delim doc.Files))
  else
    match findCollidingFile doc.Delimiter doc.Files with
    | some f =>
      (doc, .error
        (match findSafeDelimiter doc with
         | .ok alt => collisionSuggestMsg doc.Delimiter f.Path alt
         | .error ae => collisionNoSafeMsg doc.Delimiter f.Path ae))
    | none => (doc, .ok (writeOutput doc.Delimiter doc.Files))

/-- Replacing each LF by CRLF: the CRLF-convention rendering of a text. -/
def expandCRLF : Str → Str
  | [] => []
  | c :: cs => if c = '\n' then '\r' :: '\n' :: expandCRLF cs else c :: expandCRLF cs

/-! ## Lemmas about whitespace trimming -/

theorem dropWhile_self_idem (p : Char → Bool) (l : Str) :
    (l.dropWhile p).dropWhile p = l.dropWhile p := by
  induction l with
  | nil => rfl
  | cons h t ih =>
    by_cases hp : p h
    · simp [List.dropWhile_cons, hp, ih]
    · simp [List.dropWhile_cons, hp]

theorem trimRight_cons_ne (c : Char) (cs : Str) (h : trimRight cs ≠ []) :
    trimRight (c :: cs) = c :: trimRight cs := by
  rcases hx : trimRight cs with _ | ⟨r, rs⟩
  · exact absurd hx h
  · unfold trimRight
    rw [hx]

theorem trimRight_idem (s : Str) : trimRight (trimRight s) = trimRight s := by
  induction s with
  | nil => rfl
  | cons c cs ih =>
    by_cases h : trimRight cs = []
    · by_cases hc : goIsSpace c
      · simp [trimRight, h, hc]
      · simp [trimRight, h, hc]
    · rw [trimRight_cons_ne c cs h, trimRight_cons_ne c (trimRight cs) (by rw [ih]; exact h), ih]

theorem trimRight_comm_trimLeft (s : Str) :
    trimRight (trimLeft s) = trimLeft (trimRight s) := by
  induction s with
  | nil => rfl
  | cons c cs ih =>
    by_cases hc : goIsSpace c
    · rw [show trimLeft (c :: cs) = trimLeft cs by simp [trimLeft, List.dropWhile_cons, hc]]
      rw [ih]
      by_cases h : trimRight cs = []
      · simp [trimRight, h, hc, trimLeft]
      · rw [trimRight_cons_ne c cs h]
        simp [trimLeft, List.dropWhile_cons, hc]
    · rw [show trimLeft (c :: cs) = c :: cs by simp [trimLeft, List.dropWhile_cons, hc]]
      by_cases h : trimRight cs = []
      · simp [trimRight, h, hc, trimLeft, List.dropWhile_cons]
      · rw [trimRight_cons_ne c cs h]
        simp [trimLeft, List.dropWhile_cons, hc]

theorem trimSpace_idem (s : Str) : trimSpace (trimSpace s) = trimSpace s := by
  unfold trimSpace
  rw [trimRight_comm_trimLeft (trimRight s), trimRight_idem s]
  exact dropWhile_self_idem _ _

/-! ## C3: whole-line trimming in the detector -/

/-- C3 counterexample: the claim says a non-blank line whose first character
is an ASCII space fails with `InvalidDeclaration`; in fact `detectDelimiter`
trims the whole line before scanning, so `" > file.txt"` succeeds with
delimiter `">"` and path `"file.txt"`. -/
theorem detect_whole_line_trim_cx :
    detectDelimiter " > file.txt".data = .ok (['>'], "file.txt".data) := by rfl

/-- C3 amended: the detector trims leading and trailing whitespace from the
whole line before scanning for delimiter characters (its result on any line
equals its result on the trimmed line); in particular `" > file.txt"`
succeeds with delimiter `">"` and path `"file.txt"` rather than failing. -/
theorem detect_whole_line_trim :
    (∀ line : Str, detectDelimiter line = detectDelimiter (trimSpace line))
    ∧ detectDelimiter " > file.txt".data = .ok (['>'], "file.txt".data) := by
  constructor
  · intro line
    simp only [detectDelimiter, trimSpace_idem]
  · rfl

/-! ## C8: path validation -/

/-- C8: `validatePath` rejects the empty path and `"."` (invalid path),
every absolute path (absolute paths not allowed), every path containing the
two-character substring `".."` anywhere (parent references not allowed, a
pure substring test), and every path containing a null character, and
accepts every other path, e.g. `"a/b.txt"`. -/
theorem validatePath_spec :
    (∀ p : Str, validatePath p = .ok () ↔
      p ≠ [] ∧ p ≠ ['.'] ∧ isAbsPath p = false ∧
        containsSub ['.', '.'] p = false ∧ p.contains '\x00' = false)
    ∧ validatePath [] = .error (invalidPathMsg [])
    ∧ validatePath ['.'] = .error (invalidPathMsg ['.'])
    ∧ (∀ p : Str, isAbsPath p = true → validatePath p = .error (absPathMsg p))
    ∧ (∀ p : Str, containsSub ['.', '.'] p = true → isAbsPath p = false →
        validatePath p = .error (parentRefMsg p))
    ∧ (∀ p : Str, p.contains '\x00' = true → containsSub ['.', '.'] p = false →
        isAbsPath p = false → validatePath p = .error (nullByteMsg p))
    ∧ validatePath "a/b.txt".data = .ok () := by
  refine ⟨?_, by rfl, by rfl, ?_, ?_, ?_, by rfl⟩
  · intro p
    unfold validatePath
    split_ifs with h1 h2 h3 h4
    · have h1' : p = [] ∨ p = ['.'] := by simpa using h1
      rcases h1' with rfl | rfl <;> simp
    · simp_all
    · simp_all
    · simp_all
    · simp_all
  · intro p habs
    have h1 : ¬(p = [] ∨ p = ['.']) := by
      rintro (rfl | rfl) <;> simp [isAbsPath] at habs
    unfold validatePath
    split_ifs <;> simp_all
  · intro p hsub habs
    have h1 : ¬(p = [] ∨ p = ['.']) := by
      rintro (rfl | rfl) <;> simp [containsSub, List.isPrefixOf] at hsub
    unfold validatePath
    split_ifs <;> simp_all
  · intro p hnull hsub habs
    have h1 : ¬(p = [] ∨ p = ['.']) := by
      rintro (rfl | rfl) <;> simp at hnull
    unfold validatePath
    split_ifs <;> simp_all

/-- Witness for C8: the concrete rejections and acceptance named by the
spec: `"../x"` and `"a..b"` are parent-reference rejections, `"/x"` is an
absolute-path rejection, a path with an embedded NUL is rejected, and the
characterization instantiated at `"a/b.txt"` yields acceptance. -/
theorem validatePath_spec_witness :
    validatePath "../x".data = .error (parentRefMsg "../x".data)
    ∧ validatePath "/x".data = .error (absPathMsg "/x".data)
    ∧ validatePath "a..b".data = .error (parentRefMsg "a..b".data)
    ∧ validatePath ['a', '\x00'] = .error (nullByteMsg ['a', '\x00'])
    ∧ (validatePath "a/b.txt".data = .ok () ↔
        "a/b.txt".data ≠ [] ∧ "a/b.txt".data ≠ ['.'] ∧
          isAbsPath "a/b.txt".data = false ∧
          containsSub ['.', '.'] "a/b.txt".data = false ∧
          "a/b.txt".data.contains '\x00' = false) :=
  ⟨validatePath_spec.2.2.2.2.1 _ (by decide) (by decide),
   validatePath_spec.2.2.2.1 _ (by decide),
   validatePath_spec.2.2.2.2.1 _ (by decide) (by decide),
   validatePath_spec.2.2.2.2.2.1 _ (by decide) (by decide) (by decide),
   validatePath_spec.1 _⟩

/-! ## Lemmas about the declaration-line scan -/

theorem trimRight_append_ne (a b : Str) (h : trimRight b ≠ []) :
    trimRight (a ++ b) = a ++ trimRight b := by
  induction a with
  | nil => rfl
  | cons c a' ih =>
    have hne : trimRight (a' ++ b) ≠ [] := by
      rw [ih]
      simp [h]
    rw [List.cons_append, trimRight_cons_ne c (a' ++ b) hne, ih]
    simp

theorem takeWhile_append_stop (p : Char → Bool) (xs : Str) (y : Char) (zs : Str)
    (hxs : ∀ x ∈ xs, p x = true) (hy : p y = false) :
    (xs ++ y :: zs).takeWhile p = xs ∧ (xs ++ y :: zs).dropWhile p = y :: zs := by
  induction xs with
  | nil =>
    constructor
    · simp [List.takeWhile_cons, hy]
    · simp [List.dropWhile_cons, hy]
  | cons x xs' ih =>
    have hx : p x = true := hxs x (by simp)
    have ih' := ih fun x hx => hxs x (by simp [hx])
    simp [List.takeWhile_cons, List.dropWhile_cons, hx, ih'.1, ih'.2]

theorem trimSpace_trimRight (s : Str) : trimSpace (trimRight s) = trimSpace s := by
  unfold trimSpace
  rw [trimRight_idem]

theorem trimRight_ne_of_trimSpace_ne (s : Str) (h : trimSpace s ≠ []) :
    trimRight s ≠ [] := by
  intro hr
  exact h (by simp [trimSpace, hr, trimLeft])

/-- Success of `detectDelimiter` on a line made of a non-empty run of
delimiter characters whose first character is not (Go) whitespace, a single
ASCII space, and a path part that is non-empty after trimming. -/
theorem detect_run_ok (c : Char) (run rest : Str)
    (hc : isValidDelimiterChar c = true) (hcs : goIsSpace c = false)
    (hrun : ∀ d ∈ run, isValidDelimiterChar d = true)
    (hrest : trimSpace rest ≠ []) :
    detectDelimiter (c :: run ++ ' ' :: rest) = .ok (c :: run, trimSpace rest) := by
  have htr : trimRight rest ≠ [] := trimRight_ne_of_trimSpace_ne rest hrest
  have line_eq : trimSpace (c :: run ++ ' ' :: rest) = c :: (run ++ ' ' :: trimRight rest) := by
    unfold trimSpace
    rw [show c :: run ++ ' ' :: rest = (c :: run ++ [' ']) ++ rest by simp]
    rw [trimRight_append_ne _ _ htr]
    rw [show (c :: run ++ [' ']) ++ trimRight rest = c :: (run ++ ' ' :: trimRight rest) by simp]
    exact List.dropWhile_cons_of_neg (by simp [hcs])
  have hsplit := takeWhile_append_stop isValidDelimiterChar (c :: run) ' '
    (trimRight rest)
    (by intro x hx; rcases List.mem_cons.1 hx with rfl | hx; exact hc; exact hrun x hx)
    (by decide)
  have hpath : trimSpace (trimRight rest) = trimSpace rest := trimSpace_trimRight rest
  have hpe : (trimSpace rest).isEmpty = false := by
    rcases h : trimSpace rest with _ | _
    · exact absurd h hrest
    · rfl
  simp only [detectDelimiter, line_eq]
  rw [show c :: (run ++ ' ' :: trimRight rest) = (c :: run) ++ ' ' :: trimRight rest by simp]
  simp only [hsplit.1, hsplit.2, List.isEmpty_cons, hpath]
  simp [hpe]

/-! ## C2: the Unicode-permissive detection rule -/

/-- C2 counterexample: `'\x0b'` (vertical tab) is a permitted delimiter
character under the Unicode-permissive rule (it is none of space, tab, LF,
CR), and the line `"\x0b x"` is a maximal one-character run followed by one
space and the non-empty path `"x"`, so the claim demands success with
delimiter `"\x0b"`; the code instead strips the vertical tab with the
initial whole-line `TrimSpace` (which removes all Unicode whitespace) and
fails with `InvalidDeclaration`. -/
theorem detect_unicode_rule_cx :
    isValidDelimiterChar '\x0b' = true
    ∧ detectDelimiter ['\x0b', ' ', 'x'] = .error invalidDeclMsg
    ∧ detectDelimiter ['\x0b', ' ', 'x'] ≠ .ok (['\x0b'], ['x']) := by
  refine ⟨by decide, by rfl, ?_⟩
  intro h
  rw [show detectDelimiter ['\x0b', ' ', 'x'] = .error invalidDeclMsg from rfl] at h
  exact Except.noConfusion h

/-- C2 amended: for every line consisting of a maximal non-empty run of
characters none of which is ASCII space, tab, LF or CR, *whose first
character is moreover not Unicode whitespace*, followed by exactly one
ASCII space and a path part that is non-empty after trimming, detection
succeeds and returns the run as the delimiter and the trimmed remainder as
the path; in particular `"🐢 file.py"` yields delimiter `"🐢"` and path
`"file.py"`. -/
theorem detect_unicode_rule :
    ∀ (c : Char) (run rest : Str),
      isValidDelimiterChar c = true → goIsSpace c = false →
      (∀ d ∈ run, isValidDelimiterChar d = true) → trimSpace rest ≠ [] →
      detectDelimiter (c :: run ++ ' ' :: rest) = .ok (c :: run, trimSpace rest) :=
  fun c run rest hc hcs hrun hrest => detect_run_ok c run rest hc hcs hrun hrest

/-- Witness for C2: instantiating the amended rule on `"🐢 file.py"` gives
delimiter `"🐢"` and path `"file.py"`. -/
theorem detect_unicode_rule_witness :
    detectDelimiter "🐢 file.py".data = .ok (['🐢'], "file.py".data) := by
  have h := detect_unicode_rule '🐢' [] "file.py".data (by decide) (by decide)
    (by intro d hd; simp at hd) (by decide)
  have heq : ('🐢' :: ([] : Str) ++ ' ' :: "file.py".data) = "🐢 file.py".data := by rfl
  have htrim : trimSpace "file.py".data = "file.py".data := by rfl
  rw [heq, htrim] at h
  exact h

/-! ## C6: the record-splitting rule of the parser -/

/-- C6: `ParseSiloFile` on `"> a.txt\nhello\n\n> b.txt\nworld\n"` succeeds
with delimiter `">"` and exactly the records `a.txt ↦ "hello\n\n"` and
`b.txt ↦ "world\n"` in order; and in the scanning loop a line starts a new
record exactly when it begins with the fixed prefix delimiter-plus-space
(all other lines are buffered verbatim, the buffer being joined with `'\n'`
and given a trailing `'\n'` when non-empty at close-out). -/
theorem parse_scenario_record_split :
    ParseSiloFile "> a.txt\nhello\n\n> b.txt\nworld\n".data
      = .ok ⟨[⟨"a.txt".data, "hello\n\n".data⟩, ⟨"b.txt".data, "world\n".data⟩], ['>']⟩
    ∧ (∀ (delim : Str) (seen : List Str) (curPath : Str) (buf : List Str)
        (acc : List SiloFile) (lineNo : Nat) (line : Str) (rest : List Str),
        ((delim ++ [' ']).isPrefixOf line = false →
          parseLoop delim seen curPath buf acc lineNo (line :: rest)
            = parseLoop delim seen curPath (buf ++ [line]) acc (lineNo + 1) rest)
        ∧ ((delim ++ [' ']).isPrefixOf line = true →
          parseLoop delim seen curPath buf acc lineNo (line :: rest)
            = match validatePath (trimSpace (line.drop (delim.length + 1))) with
              | .error e => .error (pathErrAt lineNo e)
              | .ok _ =>
                if seen.contains (trimSpace (line.drop (delim.length + 1)))
                then .error (dupPathMsg (trimSpace (line.drop (delim.length + 1))))
                else parseLoop delim (trimSpace (line.drop (delim.length + 1)) :: seen)
                  (trimSpace (line.drop (delim.length + 1))) []
                  (acc ++ [⟨curPath, closeContent buf⟩]) (lineNo + 1) rest)) := by
  refine ⟨by rfl, ?_⟩
  intro delim seen curPath buf acc lineNo line rest
  constructor
  · intro h
    simp [parseLoop, h]
  · intro h
    simp [parseLoop, h]

/-- Witness for C6: one buffering step on the non-declaration line
`"hello"` and one record-closing step on the declaration line `"> b.txt"`,
instantiated from the split rule, with the closed record carrying content
`"hello\n"`. -/
theorem parse_scenario_record_split_witness :
    parseLoop ['>'] ["a.txt".data] "a.txt".data [] [] 2 ("hello".data :: "> b.txt".data :: [])
      = parseLoop ['>'] ["a.txt".data] "a.txt".data ["hello".data] [] 3 ("> b.txt".data :: [])
    ∧ parseLoop ['>'] ["a.txt".data] "a.txt".data ["hello".data] [] 3 ("> b.txt".data :: [])
      = .ok ⟨[⟨"a.txt".data, "hello\n".data⟩, ⟨"b.txt".data, []⟩], ['>']⟩ := by
  constructor
  · exact (parse_scenario_record_split.2 ['>'] ["a.txt".data] "a.txt".data []
      [] 2 "hello".data ("> b.txt".data :: [])).1 (by rfl)
  · exact ((parse_scenario_record_split.2 ['>'] ["a.txt".data] "a.txt".data
      ["hello".data] [] 3 "> b.txt".data []).2 (by rfl)).trans (by rfl)

/-! ## Lemmas about the candidate list of the selector -/

theorem mem_candidatesList (d : Str) :
    d ∈ candidatesList ↔
      ∃ c, c ∈ baseChars ∧ ∃ l, 1 ≤ l ∧ l ≤ 50 ∧ d = List.replicate l c := by
  unfold candidatesList
  simp only [List.mem_flatMap, List.mem_map, List.mem_range'_1]
  constructor
  · rintro ⟨c, hc, l, ⟨h1, h2⟩, rfl⟩
    exact ⟨c, hc, l, h1, by omega, rfl⟩
  · rintro ⟨c, hc, l, h1, h2, rfl⟩
    exact ⟨c, hc, l, ⟨h1, by omega⟩, rfl⟩

theorem baseChar_facts (c : Char) (hc : c ∈ baseChars) :
    isValidDelimiterChar c = true ∧ goIsSpace c = false := by
  simp only [baseChars, List.mem_cons, List.not_mem_nil, or_false] at hc
  rcases hc with rfl | rfl | rfl | rfl <;> exact ⟨by decide, by decide⟩

/-- What a successful `findSafeDelimiter` returns: one of the 200
candidates, and one no content line collides with. -/
theorem findSafe_ok_form (doc : SiloDocument) (d : Str)
    (h : findSafeDelimiter doc = .ok d) :
    d ∈ candidatesList ∧ docCollides doc d = false := by
  rw [findSafeDelimiter.eq_def] at h
  simp only [] at h
  by_cases he : (candidatesList.filter fun d => !docCollides doc d).isEmpty
  · rw [if_pos he] at h
    exact absurd h (by simp)
  · rw [if_neg he] at h
    rcases hfind : baseChars.find? (fun c =>
        (candidatesList.filter fun d => !docCollides doc d).contains
          (List.replicate ((candidatesList.filter fun d => !docCollides doc d).foldl
            (fun m d => min m d.length) 51) c)) with _ | c
    · rw [hfind] at h
      rcases hfind2 : (candidatesList.filter fun d => !docCollides doc d).find?
          (fun d => d.length = (candidatesList.filter fun d => !docCollides doc d).foldl
            (fun m d => min m d.length) 51) with _ | d'
      · rw [hfind2] at h
        exact absurd h (by simp)
      · rw [hfind2] at h
        have hd' : d' ∈ candidatesList.filter fun d => !docCollides doc d :=
          List.mem_of_find?_eq_some hfind2
        have hm := List.mem_filter.1 hd'
        have : d = d' := by
          have := h
          simp only [Except.ok.injEq] at this
          exact this.symm
        subst this
        exact ⟨hm.1, by simpa using hm.2⟩
    · rw [hfind] at h
      simp only [Except.ok.injEq] at h
      subst h
      have hp := List.find?_some hfind
      rw [List.contains_iff_exists_mem_beq] at hp
      rcases hp with ⟨a, ha, hab⟩
      have heq : List.replicate ((candidatesList.filter fun d => !docCollides doc d).foldl
          (fun m d => min m d.length) 51) c = a := eq_of_beq hab
      have hd : List.replicate ((candidatesList.filter fun d => !docCollides doc d).foldl
          (fun m d => min m d.length) 51) c ∈ candidatesList.filter fun d => !docCollides doc d := by
        rw [heq]
        exact ha
      have hm := List.mem_filter.1 hd
      exact ⟨hm.1, by simpa using hm.2⟩

/-- Shape facts about a successful `findSafeDelimiter` result. -/
theorem findSafe_ok_props (doc : SiloDocument) (d : Str)
    (h : findSafeDelimiter doc = .ok d) :
    d ≠ [] ∧ (∀ c ∈ d, isValidDelimiterChar c = true) ∧
      (∀ c, d.head? = some c → goIsSpace c = false) ∧ docCollides doc d = false := by
  obtain ⟨hmem, hcol⟩ := findSafe_ok_form doc d h
  obtain ⟨c, hc, l, h1, h2, rfl⟩ := (mem_candidatesList d).1 hmem
  obtain ⟨hval, hsp⟩ := baseChar_facts c hc
  have hl0 : l ≠ 0 := by omega
  refine ⟨by simp [hl0], ?_, ?_, hcol⟩
  · intro x hx
    rw [List.eq_of_mem_replicate hx]
    exact hval
  · intro x hx
    rcases l with _ | l0
    · omega
    · simp only [List.replicate, List.head?_cons, Option.some.injEq] at hx
      rw [← hx]
      exact hsp

/-! ## C10: the state effect of WriteTo -/

/-- C10: `WriteTo` never modifies the `Files` sequence; with an explicitly
set delimiter the whole document is unchanged; and with an unset delimiter
a successful call leaves `Delimiter` set to the auto-selected token (which
is non-empty, so a second call takes the explicit-delimiter path). -/
theorem writeTo_state :
    ∀ doc : SiloDocument,
      (WriteTo doc).1.Files = doc.Files
      ∧ (doc.Delimiter ≠ [] → (WriteTo doc).1 = doc)
      ∧ (doc.Delimiter = [] → ∀ out, (WriteTo doc).2 = .ok out →
          findSafeDelimiter doc = .ok ((WriteTo doc).1.Delimiter)
          ∧ (WriteTo doc).1.Delimiter ≠ []) := by
  intro doc
  by_cases hd : doc.Delimiter = []
  · rcases hf : findSafeDelimiter doc with e | delim
    · have hw : WriteTo doc = (doc, .error e) := by
        unfold WriteTo
        rw [hd]
        simp [hf]
      rw [hw]
      exact ⟨rfl, fun h => absurd hd h, fun _ out hout => absurd hout (by simp)⟩
    · have hw : WriteTo doc = (⟨doc.Files, delim⟩, .ok (writeOutput delim doc.Files)) := by
        unfold WriteTo
        rw [hd]
        simp [hf]
      rw [hw]
      refine ⟨rfl, fun h => absurd hd h, fun _ out hout => ⟨rfl, ?_⟩⟩
      exact (findSafe_ok_props doc delim hf).1
  · have hde : doc.Delimiter.isEmpty = false := by
      simp [List.isEmpty_iff, hd]
    rcases hc : findCollidingFile doc.Delimiter doc.Files with _ | f
    · have hw : WriteTo doc = (doc, .ok (writeOutput doc.Delimiter doc.Files)) := by
        unfold WriteTo
        rw [hde]
        simp [hc]
      rw [hw]
      exact ⟨rfl, fun _ => rfl, fun h => absurd h hd⟩
    · have hw : WriteTo doc = (doc, .error
          (match findSafeDelimiter doc with
           | .ok alt => collisionSuggestMsg doc.Delimiter f.Path alt
           | .error ae => collisionNoSafeMsg doc.Delimiter f.Path ae)) := by
        unfold WriteTo
        rw [hde]
        simp [hc]
      rw [hw]
      exact ⟨rfl, fun _ => rfl, fun h => absurd h hd⟩

set_option maxRecDepth 8000 in
/-- Witness for C10: on a one-record document with unset delimiter, a
successful `WriteTo` leaves the files untouched and the delimiter set to
the auto-selected token `">"`. -/
theorem writeTo_state_witness :
    (WriteTo ⟨[⟨['a'], ['x', '\n']⟩], []⟩).1.Files = [⟨['a'], ['x', '\n']⟩]
    ∧ findSafeDelimiter ⟨[⟨['a'], ['x', '\n']⟩], []⟩
        = .ok ((WriteTo ⟨[⟨['a'], ['x', '\n']⟩], []⟩).1.Delimiter)
    ∧ (WriteTo ⟨[⟨['a'], ['x', '\n']⟩], []⟩).1.Delimiter ≠ [] := by
  have h := writeTo_state ⟨[⟨['a'], ['x', '\n']⟩], []⟩
  have h3 := h.2.2 rfl "> a\nx\n".data (by rfl)
  exact ⟨h.1, h3.1, h3.2⟩

/-! ## C5: collision detection in WriteTo with an explicit delimiter -/

theorem findCollidingFile_some_mem (d : Str) (fs : List SiloFile) (f : SiloFile)
    (h : findCollidingFile d fs = some f) :
    f ∈ fs ∧ fileHasCollision d f = true := by
  induction fs with
  | nil => simp [findCollidingFile] at h
  | cons g gs ih =>
    by_cases hg : fileHasCollision d g = true
    · simp only [findCollidingFile, hg, if_true, Option.some.injEq] at h
      subst h
      exact ⟨by simp, hg⟩
    · simp only [findCollidingFile, hg, if_false] at h
      obtain ⟨hm, hc⟩ := ih h
      exact ⟨by simp [hm], hc⟩

theorem findCollidingFile_eq_none (d : Str) (fs : List SiloFile)
    (h : findCollidingFile d fs = none) :
    ∀ f ∈ fs, fileHasCollision d f = false := by
  induction fs with
  | nil => simp
  | cons g gs ih =>
    by_cases hg : fileHasCollision d g = true
    · simp [findCollidingFile, hg] at h
    · simp only [findCollidingFile, hg, if_false] at h
      intro f hf
      rcases List.mem_cons.1 hf with rfl | hf
      · simpa using hg
      · exact ih h f hf

theorem fileHasCollision_iff (d : Str) (f : SiloFile) :
    fileHasCollision d f = true ↔
      ∃ line ∈ goSplit '\n' f.Content,
        line ≠ [] ∧ (d ++ [' ']).isPrefixOf line = true := by
  simp [fileHasCollision, lineCollidesWith, List.any_eq_true, Bool.and_eq_true,
    List.isEmpty_iff, and_assoc]

/-- C5: with an explicitly set delimiter, `WriteTo` fails if and only if
some (non-empty) content line of some record starts with the delimiter
followed by one ASCII space — the collision test is prefix-exact — and on
failure the error message names the offending record's path and carries
either the auto-selected alternative delimiter or, when none exists, the
secondary no-safe-delimiter note. -/
theorem writeTo_collision_iff :
    ∀ doc : SiloDocument, doc.Delimiter ≠ [] →
      ((∃ e, (WriteTo doc).2 = .error e) ↔
        ∃ f ∈ doc.Files, ∃ line ∈ goSplit '\n' f.Content,
          line ≠ [] ∧ (doc.Delimiter ++ [' ']).isPrefixOf line = true)
      ∧ (∀ e, (WriteTo doc).2 = .error e →
          ∃ f ∈ doc.Files,
            (∃ line ∈ goSplit '\n' f.Content,
              line ≠ [] ∧ (doc.Delimiter ++ [' ']).isPrefixOf line = true)
            ∧ e = (match findSafeDelimiter doc with
                   | .ok alt => collisionSuggestMsg doc.Delimiter f.Path alt
                   | .error ae => collisionNoSafeMsg doc.Delimiter f.Path ae)) := by
  intro doc hd
  have hde : doc.Delimiter.isEmpty = false := by
    simp [List.isEmpty_iff, hd]
  rcases hc : findCollidingFile doc.Delimiter doc.Files with _ | f
  · have hw : WriteTo doc = (doc, .ok (writeOutput doc.Delimiter doc.Files)) := by
      unfold WriteTo
      rw [hde]
      simp [hc]
    rw [hw]
    have hnone := findCollidingFile_eq_none _ _ hc
    constructor
    · constructor
      · rintro ⟨e, he⟩
        exact absurd he (by simp)
      · rintro ⟨f, hf, hline⟩
        have : fileHasCollision doc.Delimiter f = true := (fileHasCollision_iff _ _).2 hline
        rw [hnone f hf] at this
        cases this
    · intro e he
      exact absurd he (by simp)
  · obtain ⟨hmem, hcol⟩ := findCollidingFile_some_mem _ _ _ hc
    have hw : WriteTo doc = (doc, .error
        (match findSafeDelimiter doc with
         | .ok alt => collisionSuggestMsg doc.Delimiter f.Path alt
         | .error ae => collisionNoSafeMsg doc.Delimiter f.Path ae)) := by
      unfold WriteTo
      rw [hde]
      simp [hc]
    rw [hw]
    constructor
    · constructor
      · intro _
        exact ⟨f, hmem, (fileHasCollision_iff _ _).1 hcol⟩
      · intro _
        exact ⟨_, rfl⟩
    · intro e he
      simp only [Except.error.injEq] at he
      exact ⟨f, hmem, (fileHasCollision_iff _ _).1 hcol, he.symm⟩

def collideDoc : SiloDocument := ⟨[⟨['a'], "> something\n".data⟩], ['>']⟩
def noCollideDoc : SiloDocument := ⟨[⟨['a'], ">noSpace\n".data⟩], ['>']⟩

set_option maxRecDepth 8000 in
/-- Witness for C5: a content line `"> something"` makes `WriteTo` with
explicit delimiter `">"` fail with the message naming path `"a"` and
suggesting the alternative `"="`, while `">noSpace"` (no space after the
token) does not collide and the document is written. -/
theorem writeTo_collision_iff_witness :
    ((∃ e, (WriteTo collideDoc).2 = .error e) ↔
      ∃ f ∈ collideDoc.Files, ∃ line ∈ goSplit '\n' f.Content,
        line ≠ [] ∧ (collideDoc.Delimiter ++ [' ']).isPrefixOf line = true)
    ∧ (WriteTo collideDoc).2
        = .error (collisionSuggestMsg ['>'] ['a'] ['='])
    ∧ (WriteTo noCollideDoc).2 = .ok "> a\n>noSpace\n".data :=
  ⟨(writeTo_collision_iff collideDoc (by decide)).1, by rfl, by rfl⟩

/-! ## C7: exhaustion of the candidate space -/

/-- C7: when every one of the 200 candidates (each base character `>`,
`=`, `*`, `-` repeated at every length from 1 to 50) is eliminated by a
colliding content line, `findSafeDelimiter` fails with the
no-safe-delimiter error whose message states that the 50-character search
bound was exhausted. -/
theorem findSafe_exhausted :
    ∀ doc : SiloDocument,
      (∀ c ∈ baseChars, ∀ l, l < 51 → 1 ≤ l →
        docCollides doc (List.replicate l c) = true) →
      findSafeDelimiter doc = .error noSafeDelimiterMsg := by
  intro doc h
  have hemp : (candidatesList.filter fun d => !docCollides doc d) = [] := by
    rw [List.filter_eq_nil_iff]
    intro d hd
    obtain ⟨c, hc, l, h1, h2, rfl⟩ := (mem_candidatesList d).1 hd
    simp [h c hc l (by omega) h1]
  simp only [findSafeDelimiter, hemp]
  simp

/-- A document carrying, for each of the 200 candidates, one record whose
content is a line consisting of that candidate, a space, and `x`. -/
def exhaustDoc : SiloDocument :=
  ⟨candidatesList.map (fun d => ⟨['p'], d ++ [' ', 'x', '\n']⟩), []⟩

set_option maxRecDepth 100000 in
/-- Witness for C7: on `exhaustDoc` every candidate collides and the
selector fails with the no-safe-delimiter message. -/
theorem findSafe_exhausted_witness :
    findSafeDelimiter exhaustDoc = .error noSafeDelimiterMsg :=
  findSafe_exhausted exhaustDoc (by decide)

/-! ## C4: the selection rule of the safe-delimiter selector -/

theorem foldl_min_le (S : List Str) (a : Nat) :
    S.foldl (fun m d => min m d.length) a ≤ a ∧
      ∀ d ∈ S, S.foldl (fun m d => min m d.length) a ≤ d.length := by
  induction S generalizing a with
  | nil => simp
  | cons x xs ih =>
    refine ⟨?_, ?_⟩
    · simp only [List.foldl_cons]
      exact le_trans (ih (min a x.length)).1 (min_le_left _ _)
    · intro d hd
      rcases List.mem_cons.1 hd with rfl | hd
      · simp only [List.foldl_cons]
        exact le_trans (ih (min a d.length)).1 (min_le_right _ _)
      · simp only [List.foldl_cons]
        exact (ih (min a x.length)).2 d hd

theorem foldl_min_attain (S : List Str) (a : Nat) :
    S.foldl (fun m d => min m d.length) a = a ∨
      ∃ d ∈ S, S.foldl (fun m d => min m d.length) a = d.length := by
  induction S generalizing a with
  | nil => exact Or.inl rfl
  | cons x xs ih =>
    simp only [List.foldl_cons]
    rcases ih (min a x.length) with h | ⟨d, hd, h⟩
    · by_cases hax : a ≤ x.length
      · left
        rw [h, min_eq_left hax]
      · right
        exact ⟨x, by simp, by rw [h, min_eq_right (le_of_not_le hax)]⟩
    · right
      exact ⟨d, by simp [hd], h⟩

theorem find?_baseChars (g : Char → Bool) (c : Char)
    (h : baseChars.find? g = some c) :
    g c = true ∧
      ∀ c' ∈ baseChars, g c' = true →
        baseChars.indexOf c ≤ baseChars.indexOf c' := by
  have hmem4 : ∀ c' ∈ baseChars, c' = '>' ∨ c' = '=' ∨ c' = '*' ∨ c' = '-' := by
    intro c' hc'
    simpa [baseChars] using hc'
  cases h1 : g '>' <;> cases h2 : g '=' <;> cases h3 : g '*' <;> cases h4 : g '-' <;>
    simp only [baseChars, List.find?, h1, h2, h3, h4, Option.some.injEq] at h <;>
    cases h <;>
    refine ⟨by assumption, ?_⟩ <;>
    intro c' hc' hg <;>
    rcases hmem4 c' hc' with rfl | rfl | rfl | rfl <;>
    simp_all [baseChars, List.indexOf] <;>
    decide

set_option maxRecDepth 100000 in
/-- C4: `findSafeDelimiter` is a function of the record set (hence
deterministic), and whenever at least one of the 200 candidates survives
elimination it returns exactly the surviving candidate of smallest length,
ties at that length broken in the preference order `>`, `=`, `*`, `-`
(captured by the index in `baseChars`); for example, records whose content
contains the line `"> x"` but no line starting with `"= "` yield `"="`. -/
theorem findSafe_selection_rule :
    (∀ (doc : SiloDocument) (c : Char) (l : Nat),
      c ∈ baseChars → 1 ≤ l → l ≤ 50 →
      docCollides doc (List.replicate l c) = false →
      ∃ c0 l0, c0 ∈ baseChars ∧ 1 ≤ l0 ∧ l0 ≤ 50 ∧
        docCollides doc (List.replicate l0 c0) = false ∧
        findSafeDelimiter doc = .ok (List.replicate l0 c0) ∧
        (∀ c' l', c' ∈ baseChars → 1 ≤ l' → l' ≤ 50 →
          docCollides doc (List.replicate l' c') = false →
          l0 < l' ∨ (l0 = l' ∧ baseChars.indexOf c0 ≤ baseChars.indexOf c')))
    ∧ findSafeDelimiter ⟨[⟨['f'], "> x\n".data⟩], []⟩ = .ok ['='] := by
  constructor
  · intro doc c l hc h1 h2 hcol
    set S := candidatesList.filter (fun d => !docCollides doc d) with hS
    have hmemS : ∀ c1 l1, c1 ∈ baseChars → 1 ≤ l1 → l1 ≤ 50 →
        docCollides doc (List.replicate l1 c1) = false → List.replicate l1 c1 ∈ S := by
      intro c1 l1 hc1 h11 h21 hcol1
      rw [hS]
      exact List.mem_filter.2
        ⟨(mem_candidatesList _).2 ⟨c1, hc1, l1, h11, h21, rfl⟩, by simp [hcol1]⟩
    have hmem0 : List.replicate l c ∈ S := hmemS c l hc h1 h2 hcol
    have hSne : S ≠ [] := fun hnil => by simp [hnil] at hmem0
    have hSemp : S.isEmpty = false := by
      simp [List.isEmpty_iff, hSne]
    set m := S.foldl (fun m d => min m d.length) 51 with hm
    have hub : ∀ d ∈ S, m ≤ d.length := (foldl_min_le S 51).2
    have hubl : m ≤ l := by
      have := hub _ hmem0
      simpa using this
    have hattain : ∃ dm ∈ S, m = dm.length := by
      rcases foldl_min_attain S 51 with hcase | hcase
      · rw [← hm] at hcase
        omega
      · rw [← hm] at hcase
        exact hcase
    obtain ⟨dm, hdmS, hdm⟩ := hattain
    have hdmc : dm ∈ candidatesList ∧ (!docCollides doc dm) = true :=
      List.mem_filter.1 (hS ▸ hdmS)
    obtain ⟨cm, hcm, lm, hlm1, hlm2, rfl⟩ := (mem_candidatesList dm).1 hdmc.1
    have hmlm : m = lm := by
      simpa using hdm
    set g := fun ch => S.contains (List.replicate m ch) with hg
    have hgcm : g cm = true := by
      rw [hg]
      simp only
      rw [hmlm]
      simpa using hdmS
    rcases hfind : baseChars.find? g with _ | c0
    · exact absurd hgcm (by simpa using List.find?_eq_none.1 hfind cm hcm)
    · obtain ⟨hgc0, htie⟩ := find?_baseChars g c0 hfind
      have hc0mem : c0 ∈ baseChars := List.mem_of_find?_eq_some hfind
      have hmemc0 : List.replicate m c0 ∈ S := by
        rw [hg] at hgc0
        simpa using hgc0
      have hcolc0 : docCollides doc (List.replicate m c0) = false := by
        have := (List.mem_filter.1 (hS ▸ hmemc0)).2
        simpa using this
      have hres : findSafeDelimiter doc = .ok (List.replicate m c0) := by
        simp only [findSafeDelimiter]
        rw [← hS, ← hm, ← hg, hSemp, hfind]
        simp
      refine ⟨c0, m, hc0mem, by omega, by omega, hcolc0, hres, ?_⟩
      intro c' l' hc' h1' h2' hcol'
      have hmem' : List.replicate l' c' ∈ S := hmemS c' l' hc' h1' h2' hcol'
      have hle : m ≤ l' := by
        have := hub _ hmem'
        simpa using this
      by_cases hlt : m < l'
      · exact Or.inl hlt
      · have heq : m = l' := by omega
        refine Or.inr ⟨heq, ?_⟩
        apply htie c' hc'
        rw [hg]
        simp only
        rw [heq]
        simpa using hmem'
  · rfl

set_option maxRecDepth 100000 in
/-- Witness for C4: on a document whose single record's content contains
the line `"> x"` (and no line starting with `"= "`), the selection rule
instantiates with survivor `"="` at length 1. -/
theorem findSafe_selection_rule_witness :
    ∃ c0 l0, c0 ∈ baseChars ∧ 1 ≤ l0 ∧ l0 ≤ 50 ∧
      docCollides ⟨[⟨['f'], "> x\n".data⟩], []⟩ (List.replicate l0 c0) = false ∧
      findSafeDelimiter ⟨[⟨['f'], "> x\n".data⟩], []⟩ = .ok (List.replicate l0 c0) ∧
      (∀ c' l', c' ∈ baseChars → 1 ≤ l' → l' ≤ 50 →
        docCollides ⟨[⟨['f'], "> x\n".data⟩], []⟩ (List.replicate l' c') = false →
        l0 < l' ∨ (l0 = l' ∧ baseChars.indexOf c0 ≤ baseChars.indexOf c')) :=
  findSafe_selection_rule.1 ⟨[⟨['f'], "> x\n".data⟩], []⟩ '=' 1
    (by decide) (by decide) (by decide) (by decide)

/-! ## Lemmas about line splitting and scanning -/

theorem goSplit_ne_nil (sep : Char) (s : Str) : goSplit sep s ≠ [] := by
  cases s with
  | nil => simp [goSplit]
  | cons c cs =>
    simp only [goSplit]
    rcases goSplit sep cs with _ | ⟨h1, t⟩
    · simp
    · by_cases hc : c = sep <;> simp [hc]

theorem mem_goSplit_chars (sep : Char) (s : Str) :
    ∀ part ∈ goSplit sep s, ∀ ch ∈ part, ch ∈ s ∧ ch ≠ sep := by
  induction s with
  | nil =>
    intro part hpart
    simp only [goSplit, List.mem_singleton] at hpart
    subst hpart
    intro ch hch
    simp at hch
  | cons c cs ih =>
    intro part hpart ch hch
    rcases hsplit : goSplit sep cs with _ | ⟨p1, ps⟩
    · exact absurd hsplit (goSplit_ne_nil sep cs)
    · simp only [goSplit, hsplit] at hpart
      by_cases hc : c = sep
      · simp only [hc, if_true] at hpart
        rcases List.mem_cons.1 hpart with rfl | hpart
        · simp at hch
        · have := ih part (hsplit ▸ hpart) ch hch
          exact ⟨by simp [this.1], this.2⟩
      · simp only [hc, if_false] at hpart
        rcases List.mem_cons.1 hpart with rfl | hpart
        · rcases List.mem_cons.1 hch with rfl | hch
          · exact ⟨by simp, hc⟩
          · have := ih p1 (hsplit ▸ by simp) ch hch
            exact ⟨by simp [this.1], this.2⟩
        · have := ih part (hsplit ▸ by simp [hpart]) ch hch
          exact ⟨by simp [this.1], this.2⟩

theorem dropCR_id (part : Str) (h : '\r' ∉ part) : dropCR part = part := by
  unfold dropCR
  rcases hl : part.getLast? with _ | c
  · simp
  · by_cases hc : c = '\r'
    · subst hc
      exact absurd (List.mem_of_mem_getLast? hl) h
    · simp [hc]

theorem replaceCRLF_id (l : Str) (h : '\r' ∉ l) : replaceCRLF l = l := by
  induction l with
  | nil => rfl
  | cons c cs ih =>
    have hc : c ≠ '\r' := fun hh => h (by simp [hh])
    have hcs : '\r' ∉ cs := fun hh => h (by simp [hh])
    cases cs with
    | nil => rfl
    | cons d ds =>
      rw [replaceCRLF, if_neg (by simp [hc])]
      rw [ih hcs]

theorem replaceCR_id (l : Str) (h : '\r' ∉ l) : replaceCR l = l := by
  induction l with
  | nil => rfl
  | cons c cs ih =>
    have hc : c ≠ '\r' := fun hh => h (by simp [hh])
    have hcs : '\r' ∉ cs := fun hh => h (by simp [hh])
    simp only [replaceCR, List.map_cons, if_neg hc]
    have := ih hcs
    simp only [replaceCR] at this
    rw [this]

theorem normalizeLine_id (l : Str) (h : '\r' ∉ l) : normalizeLine l = l := by
  unfold normalizeLine
  rw [replaceCRLF_id l h, replaceCR_id l h]

/-- The parts of a split text after each interior LF has been expanded to
CRLF: every part but the last gains one trailing CR. -/
def addCRs : List Str → List Str
  | [] => []
  | [x] => [x]
  | x :: y :: ys => (x ++ ['\r']) :: addCRs (y :: ys)

theorem addCRs_ne_nil (ps : List Str) (h : ps ≠ []) : addCRs ps ≠ [] := by
  match ps with
  | [] => exact absurd rfl h
  | [x] => simp [addCRs]
  | x :: y :: ys => simp [addCRs]

theorem expandCRLF_ne_nil (c : Char) (cs : Str) : expandCRLF (c :: cs) ≠ [] := by
  rw [expandCRLF]
  by_cases hc : c = '\n' <;> simp [hc]

theorem goSplit_expand (s : Str) :
    goSplit '\n' (expandCRLF s) = addCRs (goSplit '\n' s) := by
  induction s with
  | nil => rfl
  | cons c cs ih =>
    rcases hsplit : goSplit '\n' cs with _ | ⟨p1, ps⟩
    · exact absurd hsplit (goSplit_ne_nil '\n' cs)
    · rcases hsplit2 : goSplit '\n' (expandCRLF cs) with _ | ⟨q1, qs⟩
      · exact absurd hsplit2 (goSplit_ne_nil '\n' (expandCRLF cs))
      · rw [hsplit, hsplit2] at ih
        by_cases hc : c = '\n'
        · subst hc
          rw [expandCRLF, if_pos rfl]
          rw [show goSplit '\n' ('\r' :: '\n' :: expandCRLF cs)
              = ['\r'] :: goSplit '\n' (expandCRLF cs) by
            simp only [goSplit, hsplit2]
            simp]
          rw [show goSplit '\n' ('\n' :: cs) = [] :: goSplit '\n' cs by
            simp only [goSplit, hsplit]
            simp]
          rw [hsplit, hsplit2, ih]
          simp [addCRs]
        · rw [expandCRLF, if_neg hc]
          rw [show goSplit '\n' (c :: expandCRLF cs) = (c :: q1) :: qs by
            simp only [goSplit, hsplit2]
            simp [hc]]
          rw [show goSplit '\n' (c :: cs) = (c :: p1) :: ps by
            simp only [goSplit, hsplit]
            simp [hc]]
          rcases ps with _ | ⟨p2, ps2⟩
          · rcases qs with _ | ⟨q2, qs2⟩
            · simp only [addCRs] at ih ⊢
              simp only [List.cons.injEq] at ih
              rw [ih.1]
            · simp [addCRs] at ih
          · rcases qs with _ | ⟨q2, qs2⟩
            · simp only [addCRs] at ih
              simp only [List.cons.injEq] at ih
              exact absurd ih.2.symm (addCRs_ne_nil (p2 :: ps2) (by simp))
            · simp only [addCRs] at ih ⊢
              simp only [List.cons.injEq] at ih
              refine List.cons_eq_cons.2 ⟨?_, ?_⟩
              · rw [ih.1]
                simp
              · exact ih.2

theorem dropCR_concat (x : Str) : dropCR (x ++ ['\r']) = x := by
  unfold dropCR
  rw [List.getLast?_concat]
  simp [List.dropLast_concat]

theorem addCRs_getLast? (ps : List Str) : (addCRs ps).getLast? = ps.getLast? := by
  induction ps with
  | nil => rfl
  | cons x xs ih =>
    cases xs with
    | nil => rfl
    | cons y ys =>
      rcases ha : addCRs (y :: ys) with _ | ⟨a, as⟩
      · exact absurd ha (addCRs_ne_nil (y :: ys) (by simp))
      · rw [show addCRs (x :: y :: ys) = (x ++ ['\r']) :: addCRs (y :: ys) from rfl, ha]
        rw [List.getLast?_cons_cons, ← ha, ih, List.getLast?_cons_cons]

theorem addCRs_dropLast (ps : List Str) :
    (addCRs ps).dropLast = ps.dropLast.map (· ++ ['\r']) := by
  induction ps with
  | nil => rfl
  | cons x xs ih =>
    cases xs with
    | nil => rfl
    | cons y ys =>
      rcases ha : addCRs (y :: ys) with _ | ⟨a, as⟩
      · exact absurd ha (addCRs_ne_nil (y :: ys) (by simp))
      · rw [show addCRs (x :: y :: ys) = (x ++ ['\r']) :: addCRs (y :: ys) from rfl, ha]
        rw [List.dropLast_cons₂, ← ha, ih]
        rw [show (x :: y :: ys).dropLast = x :: (y :: ys).dropLast from rfl]
        simp

theorem map_dropCR_id (ps : List Str) (h : ∀ part ∈ ps, '\r' ∉ part) :
    ps.map dropCR = ps := by
  induction ps with
  | nil => rfl
  | cons x xs ih =>
    rw [List.map_cons, dropCR_id x (h x (by simp)), ih fun p hp => h p (by simp [hp])]

theorem addCRs_map_dropCR (ps : List Str) (h : ∀ part ∈ ps, '\r' ∉ part) :
    (addCRs ps).map dropCR = ps := by
  induction ps with
  | nil => rfl
  | cons x xs ih =>
    cases xs with
    | nil =>
      rw [show addCRs [x] = [x] from rfl, List.map_cons, dropCR_id x (h x (by simp))]
      rfl
    | cons y ys =>
      rw [show addCRs (x :: y :: ys) = (x ++ ['\r']) :: addCRs (y :: ys) from rfl]
      rw [List.map_cons, dropCR_concat, ih fun p hp => h p (by simp [hp])]

theorem scanLines_of_ne_nil (s : Str) (h : s ≠ []) :
    scanLines s =
      (if (goSplit '\n' s).getLast? = some [] then (goSplit '\n' s).dropLast
       else goSplit '\n' s).map dropCR := by
  cases s with
  | nil => exact absurd rfl h
  | cons c cs => rfl

theorem scanLines_expand (s : Str) (h : '\r' ∉ s) :
    scanLines (expandCRLF s) = scanLines s := by
  cases s with
  | nil => rfl
  | cons c cs =>
    have hparts : ∀ part ∈ goSplit '\n' (c :: cs), '\r' ∉ part := by
      intro part hp hmem
      exact absurd ((mem_goSplit_chars '\n' (c :: cs) part hp '\r' hmem).1) h
    rw [scanLines_of_ne_nil _ (expandCRLF_ne_nil c cs), scanLines_of_ne_nil _ (by simp)]
    rw [goSplit_expand, addCRs_getLast?]
    by_cases hlast : (goSplit '\n' (c :: cs)).getLast? = some []
    · rw [if_pos hlast, if_pos hlast, addCRs_dropLast, List.map_map]
      have hmem : ∀ x ∈ (goSplit '\n' (c :: cs)).dropLast, '\r' ∉ x :=
        fun x hx => hparts x ((List.dropLast_sublist _).subset hx)
      rw [map_dropCR_id _ hmem]
      rw [show (dropCR ∘ fun x => x ++ ['\r']) = id by
        funext x
        simp [Function.comp, dropCR_concat]]
      exact List.map_id _
    · rw [if_neg hlast, if_neg hlast, addCRs_map_dropCR _ hparts, map_dropCR_id _ hparts]

/-! ## C9: line-ending handling in the parser -/

/-- C9 counterexample: the lone-CR rendering of `"> a.txt\nx\n"` (every LF
replaced by CR) does not parse like the LF version: the scanner treats the
whole input as one line, the per-line replacement turns the interior CRs
into LFs inside that single line, and the parse yields one record with
path `"a.txt\nx"` and empty content instead of record `a.txt ↦ "x\n"`. -/
theorem parse_line_endings_cx :
    "> a.txt\rx\r".data = "> a.txt\nx\n".data.map (fun c => if c = '\n' then '\r' else c)
    ∧ ParseSiloFile "> a.txt\rx\r".data = .ok ⟨[⟨"a.txt\nx".data, []⟩], ['>']⟩
    ∧ ParseSiloFile "> a.txt\nx\n".data = .ok ⟨[⟨"a.txt".data, "x\n".data⟩], ['>']⟩
    ∧ ParseSiloFile "> a.txt\rx\r".data ≠ ParseSiloFile "> a.txt\nx\n".data := by
  refine ⟨by rfl, by rfl, by rfl, ?_⟩
  intro heq
  rw [show ParseSiloFile "> a.txt\rx\r".data = .ok ⟨[⟨"a.txt\nx".data, []⟩], ['>']⟩ from rfl,
      show ParseSiloFile "> a.txt\nx\n".data = .ok ⟨[⟨"a.txt".data, "x\n".data⟩], ['>']⟩ from rfl]
    at heq
  simp only [Except.ok.injEq] at heq
  exact absurd heq (by decide)

/-- C9 amended: `ParseSiloFile` is insensitive to the CRLF line-ending
convention — parsing the text in which every LF of a CR-free text is
expanded to CRLF yields the same result as parsing the original — because
the scanner strips the CR of each CRLF pair; a lone CR, however, is not a
line terminator (it is kept inside the line, trailing CRs are stripped and
interior CRs replaced by LF within the line). -/
theorem parse_line_endings :
    ∀ s : Str, '\r' ∉ s → ParseSiloFile (expandCRLF s) = ParseSiloFile s := by
  intro s h
  unfold ParseSiloFile
  rw [scanLines_expand s h]

/-- Witness for C9: the CRLF rendering of `"> a.txt\nx\n"` parses to the
same document as the LF version. -/
theorem parse_line_endings_witness :
    ParseSiloFile "> a.txt\r\nx\r\n".data = ParseSiloFile "> a.txt\nx\n".data := by
  have h := parse_line_endings "> a.txt\nx\n".data (by decide)
  rw [show expandCRLF "> a.txt\nx\n".data = "> a.txt\r\nx\r\n".data from rfl] at h
  exact h

/-! ## Lemmas about content reconstruction (towards the round trip) -/

theorem joinNl_goSplit (s : Str) : joinNl (goSplit '\n' s) = s := by
  induction s with
  | nil => rfl
  | cons c cs ih =>
    rcases hsplit : goSplit '\n' cs with _ | ⟨p, ps⟩
    · exact absurd hsplit (goSplit_ne_nil '\n' cs)
    · rw [hsplit] at ih
      by_cases hc : c = '\n'
      · subst hc
        rw [show goSplit '\n' ('\n' :: cs) = [] :: p :: ps by
          simp only [goSplit, hsplit]
          simp]
        rcases ps with _ | ⟨q, qs⟩ <;> simp [joinNl, *] at ih ⊢ <;> rw [ih]
      · rw [show goSplit '\n' (c :: cs) = (c :: p) :: ps by
          simp only [goSplit, hsplit]
          simp [hc]]
        rcases ps with _ | ⟨q, qs⟩ <;> simp [joinNl] at ih ⊢ <;> rw [ih]

theorem goSplit_append_cons (l : Str) (hl : '\n' ∉ l) (rest : Str) :
    goSplit '\n' (l ++ '\n' :: rest) = l :: goSplit '\n' rest := by
  induction l with
  | nil =>
    rcases hsplit : goSplit '\n' rest with _ | ⟨p, ps⟩
    · exact absurd hsplit (goSplit_ne_nil '\n' rest)
    · simp only [List.nil_append, goSplit, hsplit]
      simp
  | cons c l' ih =>
    have hc : c ≠ '\n' := fun hh => hl (by simp [hh])
    have ih' := ih fun hh => hl (by simp [hh])
    rw [List.cons_append]
    simp only [goSplit, ih']
    simp [hc]

theorem goSplit_eq_singleton_nil (s : Str) (h : goSplit '\n' s = [[]]) : s = [] := by
  cases s with
  | nil => rfl
  | cons c cs =>
    exfalso
    rcases hsplit : goSplit '\n' cs with _ | ⟨p, ps⟩
    · exact absurd hsplit (goSplit_ne_nil '\n' cs)
    · by_cases hc : c = '\n'
      · rw [show goSplit '\n' (c :: cs) = [] :: p :: ps by
          simp only [goSplit, hsplit]
          simp [hc]] at h
        simp at h
      · rw [show goSplit '\n' (c :: cs) = (c :: p) :: ps by
          simp only [goSplit, hsplit]
          simp [hc]] at h
        simp at h

/-- The content lines a record contributes to the written stream: the
parts of `goSplit` except the final empty part left by the trailing
newline (none when the content is empty). -/
def contentLines (c : Str) : List Str :=
  if c.isEmpty then [] else (goSplit '\n' c).dropLast

theorem goSplit_cons_sep (sep : Char) (cs : Str) :
    goSplit sep (sep :: cs) = [] :: goSplit sep cs := by
  rcases h : goSplit sep cs with _ | ⟨p, ps⟩
  · exact absurd h (goSplit_ne_nil sep cs)
  · simp only [goSplit, h]
    simp

theorem goSplit_cons_of_ne (sep c : Char) (cs : Str) (hc : c ≠ sep)
    (p : Str) (ps : List Str) (h : goSplit sep cs = p :: ps) :
    goSplit sep (c :: cs) = (c :: p) :: ps := by
  simp only [goSplit, h]
  simp [hc]

theorem joinNl_cons_cons (x y : Str) (ys : List Str) :
    joinNl (x :: y :: ys) = x ++ '\n' :: joinNl (y :: ys) := rfl

theorem goSplit_of_getLast_nl (s : Str) (h : s.getLast? = some '\n') :
    (goSplit '\n' s).getLast? = some [] ∧
      (((goSplit '\n' s).dropLast.map (· ++ ['\n'])).flatten = s) := by
  induction s with
  | nil => simp at h
  | cons c cs ih =>
    cases cs with
    | nil =>
      simp only [List.getLast?_singleton, Option.some.injEq] at h
      subst h
      constructor <;> rfl
    | cons d ds =>
      rw [List.getLast?_cons_cons] at h
      obtain ⟨ih1, ih2⟩ := ih h
      rcases hsplit : goSplit '\n' (d :: ds) with _ | ⟨p, ps⟩
      · exact absurd hsplit (goSplit_ne_nil '\n' _)
      · rw [hsplit] at ih1 ih2
        by_cases hc : c = '\n'
        · subst hc
          rw [goSplit_cons_sep '\n' (d :: ds), hsplit]
          constructor
          · rw [List.getLast?_cons_cons]
            exact ih1
          · rw [List.dropLast_cons₂]
            simp only [List.map_cons, List.flatten_cons]
            rw [ih2]
            rfl
        · rw [goSplit_cons_of_ne '\n' c (d :: ds) hc p ps hsplit]
          rcases ps with _ | ⟨q, qs⟩
          · exfalso
            simp only [List.getLast?_singleton, Option.some.injEq] at ih1
            subst ih1
            exact absurd (goSplit_eq_singleton_nil _ hsplit) (by simp)
          · constructor
            · rw [List.getLast?_cons_cons]
              rw [List.getLast?_cons_cons] at ih1
              exact ih1
            · rw [List.dropLast_cons₂]
              simp only [List.map_cons, List.flatten_cons]
              rw [List.dropLast_cons₂] at ih2
              simp only [List.map_cons, List.flatten_cons] at ih2
              rw [show (c :: p ++ ['\n']) ++ (List.map (fun x => x ++ ['\n']) (q :: qs).dropLast).flatten
                  = c :: ((p ++ ['\n']) ++ (List.map (fun x => x ++ ['\n']) (q :: qs).dropLast).flatten) by simp]
              rw [ih2]

theorem joinNl_append_nil (xs : List Str) :
    joinNl (xs ++ [[]]) = if xs.isEmpty then [] else joinNl xs ++ ['\n'] := by
  induction xs with
  | nil => rfl
  | cons x xs' ih =>
    cases xs' with
    | nil => rfl
    | cons y ys =>
      rw [show (x :: y :: ys) ++ [[]] = x :: y :: (ys ++ [[]]) by simp]
      rw [joinNl_cons_cons]
      rw [show (y :: (ys ++ [[]])) = ((y :: ys) ++ [[]]) by simp]
      rw [ih]
      rw [show (y :: ys).isEmpty = false from rfl, if_neg (by simp)]
      rw [show (x :: y :: ys).isEmpty = false from rfl, if_neg (by simp)]
      rw [joinNl_cons_cons]
      simp

theorem closeContent_contentLines (C : Str)
    (h : C = [] ∨ (C.getLast? = some '\n' ∧ C ≠ ['\n'])) :
    closeContent (contentLines C) = C := by
  rcases h with rfl | ⟨hlast, hone⟩
  · rfl
  · have hne : C ≠ [] := by
      intro hnil
      rw [hnil] at hlast
      simp at hlast
    obtain ⟨h1, _⟩ := goSplit_of_getLast_nl C hlast
    have hparts : goSplit '\n' C = (goSplit '\n' C).dropLast ++ [[]] := by
      have hx := List.dropLast_append_getLast (l := goSplit '\n' C) (goSplit_ne_nil '\n' C)
      rw [List.getLast?_eq_getLast _ (goSplit_ne_nil '\n' C), Option.some.injEq] at h1
      rw [h1] at hx
      exact hx.symm
    have hjoin : joinNl ((goSplit '\n' C).dropLast ++ [[]]) = C := by
      rw [← hparts]
      exact joinNl_goSplit C
    rw [joinNl_append_nil] at hjoin
    by_cases hdl : ((goSplit '\n' C).dropLast).isEmpty
    · rw [if_pos hdl] at hjoin
      exact absurd hjoin.symm hne
    · rw [if_neg hdl] at hjoin
      have hjne : joinNl ((goSplit '\n' C).dropLast) ≠ [] := by
        intro hj
        rw [hj] at hjoin
        exact hone hjoin.symm
      have hcl : contentLines C = (goSplit '\n' C).dropLast := by
        simp [contentLines, List.isEmpty_iff, hne]
      rw [hcl]
      simpa [closeContent, List.isEmpty_iff, hjne] using hjoin

theorem normContent_id (C : Str) (h : C = [] ∨ C.getLast? = some '\n') :
    normContent C = C := by
  rcases h with rfl | hlast
  · rfl
  · unfold normContent
    rw [hlast]
    simp

theorem contentLines_flatten (C : Str) (h : C = [] ∨ C.getLast? = some '\n') :
    ((contentLines C).map (· ++ ['\n'])).flatten = C := by
  rcases h with rfl | hlast
  · rfl
  · have hne : C ≠ [] := by
      intro hnil
      rw [hnil] at hlast
      simp at hlast
    have hcl : contentLines C = (goSplit '\n' C).dropLast := by
      simp [contentLines, List.isEmpty_iff, hne]
    rw [hcl]
    exact (goSplit_of_getLast_nl C hlast).2

theorem getLast?_cons_of_ne_nil (x : Str) (l : List Str) (h : l ≠ []) :
    (x :: l).getLast? = l.getLast? := by
  rcases l with _ | ⟨y, ys⟩
  · exact absurd rfl h
  · exact List.getLast?_cons_cons

theorem dropLast_cons_of_ne_nil (x : Str) (l : List Str) (h : l ≠ []) :
    (x :: l).dropLast = x :: l.dropLast := by
  rcases l with _ | ⟨y, ys⟩
  · exact absurd rfl h
  · exact List.dropLast_cons₂

/-- Scanning the concatenation of newline-terminated lines recovers the
lines, provided no line contains a LF or CR. -/
theorem scanLines_units (ls : List Str) (h : ∀ l ∈ ls, '\n' ∉ l ∧ '\r' ∉ l) :
    scanLines ((ls.map (· ++ ['\n'])).flatten) = ls := by
  induction ls with
  | nil => rfl
  | cons l ls' ih =>
    obtain ⟨hl, hlr⟩ := h l (by simp)
    have hrest : ∀ x ∈ ls', '\n' ∉ x ∧ '\r' ∉ x := fun x hx => h x (by simp [hx])
    have ih2 := ih hrest
    have hflat : ((l :: ls').map (· ++ ['\n'])).flatten
        = l ++ '\n' :: ((ls'.map (· ++ ['\n'])).flatten) := by
      simp
    rw [hflat]
    have hne : l ++ '\n' :: ((ls'.map (· ++ ['\n'])).flatten) ≠ [] := by
      rcases l with _ | ⟨c, cs⟩ <;> simp
    rw [scanLines_of_ne_nil _ hne]
    rw [goSplit_append_cons l hl]
    cases ls' with
    | nil =>
      simp only [List.map_nil, List.flatten_nil]
      rw [show goSplit '\n' [] = [[]] from rfl]
      rw [getLast?_cons_of_ne_nil l [[]] (by simp)]
      rw [if_pos (by rfl)]
      rw [dropLast_cons_of_ne_nil l [[]] (by simp)]
      rw [show ([[]] : List Str).dropLast = [] from rfl]
      simp [dropCR_id l hlr]
    | cons l2 ls2 =>
      have hne2 : (((l2 :: ls2).map (· ++ ['\n'])).flatten) ≠ [] := by
        rcases l2 with _ | ⟨c, cs⟩ <;> simp
      rw [scanLines_of_ne_nil _ hne2] at ih2
      rw [getLast?_cons_of_ne_nil l _ (goSplit_ne_nil '\n' _)]
      by_cases hlast : (goSplit '\n' (((l2 :: ls2).map (· ++ ['\n'])).flatten)).getLast? = some []
      · rw [if_pos hlast] at ih2 ⊢
        rw [dropLast_cons_of_ne_nil l _ (goSplit_ne_nil '\n' _)]
        rw [List.map_cons, dropCR_id l hlr, ih2]
      · rw [if_neg hlast] at ih2 ⊢
        rw [List.map_cons, dropCR_id l hlr, ih2]

/-- The scanner lines one record contributes to the written stream: the
declaration line followed by its content lines. -/
def chunkOf (delim : Str) (f : SiloFile) : List Str :=
  (delim ++ ' ' :: f.Path) :: contentLines f.Content

theorem emitFile_eq (delim : Str) (f : SiloFile)
    (h : f.Content = [] ∨ f.Content.getLast? = some '\n') :
    emitFile delim f = ((chunkOf delim f).map (· ++ ['\n'])).flatten := by
  unfold emitFile chunkOf
  rw [normContent_id f.Content h]
  simp only [List.map_cons, List.flatten_cons]
  rw [contentLines_flatten f.Content h]
  simp

theorem writeOutput_eq (delim : Str) (files : List SiloFile)
    (h : ∀ f ∈ files, f.Content = [] ∨ f.Content.getLast? = some '\n') :
    writeOutput delim files = (((files.flatMap (chunkOf delim)).map (· ++ ['\n']))).flatten := by
  induction files with
  | nil => rfl
  | cons f fs ih =>
    rw [show writeOutput delim (f :: fs) = emitFile delim f ++ writeOutput delim fs by
      simp [writeOutput]]
    rw [emitFile_eq delim f (h f (by simp)), ih fun g hg => h g (by simp [hg])]
    simp [List.flatMap_cons]

theorem isPrefixOf_nil_false (l : Str) (h : l ≠ []) :
    l.isPrefixOf ([] : Str) = false := by
  rcases l with _ | ⟨c, cs⟩
  · exact absurd rfl h
  · rfl

theorem decl_isPrefixOf (delim path : Str) :
    (delim ++ [' ']).isPrefixOf (delim ++ ' ' :: path) = true := by
  rw [List.isPrefixOf_iff_prefix]
  rw [show delim ++ ' ' :: path = (delim ++ [' ']) ++ path by simp]
  exact List.prefix_append _ _

theorem decl_drop (delim path : Str) :
    (delim ++ ' ' :: path).drop (delim.length + 1) = path := by
  rw [show delim ++ ' ' :: path = (delim ++ [' ']) ++ path by simp]
  rw [show delim.length + 1 = (delim ++ [' ']).length by simp]
  exact List.drop_left _ _

theorem isBlank_cons_false (c : Char) (s : Str) (hc : goIsSpace c = false) :
    isBlankLine (c :: s) = false := by
  unfold isBlankLine trimSpace
  rcases h : trimRight s with _ | ⟨r, rs⟩
  · rw [show trimRight (c :: s) = if goIsSpace c then [] else [c] by
      unfold trimRight
      rw [h]]
    simp [hc, trimLeft]
  · rw [trimRight_cons_ne c s (by simp [h])]
    simp [trimLeft, List.dropWhile_cons, hc]

theorem validatePath_ok_ne_nil (p : Str) (h : validatePath p = .ok ()) : p ≠ [] := by
  rintro rfl
  simp [validatePath] at h

/-- Lines that do not start with the declaration prefix are buffered one by
one by the scanning loop. -/
theorem parseLoop_buffer (delim : Str) (cls : List Str)
    (h : ∀ l ∈ cls, (delim ++ [' ']).isPrefixOf l = false) :
    ∀ (seen : List Str) (curPath : Str) (buf : List Str) (acc : List SiloFile)
      (n : Nat) (rest : List Str),
    parseLoop delim seen curPath buf acc n (cls ++ rest)
      = parseLoop delim seen curPath (buf ++ cls) acc (n + cls.length) rest := by
  induction cls with
  | nil => simp
  | cons l cls' ih =>
    intro seen curPath buf acc n rest
    rw [List.cons_append]
    rw [show parseLoop delim seen curPath buf acc n (l :: (cls' ++ rest))
        = parseLoop delim seen curPath (buf ++ [l]) acc (n + 1) (cls' ++ rest) by
      simp [parseLoop, h l (by simp)]]
    rw [ih (fun x hx => h x (by simp [hx])) seen curPath (buf ++ [l]) acc (n + 1) rest]
    rw [show (buf ++ [l]) ++ cls' = buf ++ (l :: cls') by simp]
    rw [show n + 1 + cls'.length = n + (l :: cls').length by simp; omega]

/-- Main loop invariant for parsing back a written document: starting just
after a declaration whose record is `cur`, consuming `cur`'s content lines
and the chunks of the remaining records yields exactly those records. -/
theorem parse_chunks (delim : Str) :
    ∀ (fs : List SiloFile) (cur : SiloFile) (acc : List SiloFile)
      (seen : List Str) (n : Nat),
    (∀ f ∈ cur :: fs, ∀ line ∈ contentLines f.Content,
      (delim ++ [' ']).isPrefixOf line = false) →
    (∀ f ∈ cur :: fs, f.Content = [] ∨
      (f.Content.getLast? = some '\n' ∧ f.Content ≠ ['\n'])) →
    (∀ f ∈ fs, validatePath f.Path = .ok () ∧ trimSpace f.Path = f.Path) →
    ((fs.map SiloFile.Path).Nodup) →
    (∀ f ∈ fs, f.Path ∉ seen) →
    parseLoop delim seen cur.Path [] acc n
        (contentLines cur.Content ++ fs.flatMap (chunkOf delim))
      = .ok ⟨acc ++ cur :: fs, delim⟩ := by
  intro fs
  induction fs with
  | nil =>
    intro cur acc seen n hcol hnorm hv hnd hseen
    rw [List.flatMap_nil, List.append_nil]
    rw [show contentLines cur.Content = contentLines cur.Content ++ [] by simp]
    rw [parseLoop_buffer delim _ (hcol cur (by simp)) seen cur.Path [] acc n []]
    rw [List.nil_append]
    rw [show parseLoop delim seen cur.Path (contentLines cur.Content) acc
        (n + (contentLines cur.Content).length) []
        = .ok ⟨acc ++ [⟨cur.Path, closeContent (contentLines cur.Content)⟩], delim⟩ from rfl]
    rw [closeContent_contentLines cur.Content (hnorm cur (by simp))]
  | cons f fs' ih =>
    intro cur acc seen n hcol hnorm hv hnd hseen
    rw [List.flatMap_cons]
    rw [show chunkOf delim f ++ fs'.flatMap (chunkOf delim)
        = (delim ++ ' ' :: f.Path) :: (contentLines f.Content ++ fs'.flatMap (chunkOf delim)) by
      simp [chunkOf]]
    rw [parseLoop_buffer delim _ (hcol cur (by simp)) seen cur.Path [] acc n _]
    rw [List.nil_append]
    obtain ⟨hvf, htf⟩ := hv f (by simp)
    have hpath : trimSpace ((delim ++ ' ' :: f.Path).drop (delim.length + 1)) = f.Path := by
      rw [decl_drop]
      exact htf
    have hcontains : seen.contains f.Path = false := by
      have := hseen f (by simp)
      simp [this]
    rw [show parseLoop delim seen cur.Path (contentLines cur.Content) acc
        (n + (contentLines cur.Content).length)
        ((delim ++ ' ' :: f.Path) :: (contentLines f.Content ++ fs'.flatMap (chunkOf delim)))
        = parseLoop delim (f.Path :: seen) f.Path []
            (acc ++ [⟨cur.Path, closeContent (contentLines cur.Content)⟩])
            (n + (contentLines cur.Content).length + 1)
            (contentLines f.Content ++ fs'.flatMap (chunkOf delim)) by
      simp only [parseLoop, decl_isPrefixOf, if_true, hpath, hvf, hcontains]
      simp]
    rw [closeContent_contentLines cur.Content (hnorm cur (by simp))]
    have h1 : ∀ g ∈ f :: fs', ∀ line ∈ contentLines g.Content,
        (delim ++ [' ']).isPrefixOf line = false := by
      intro g hg
      exact hcol g (by simp at hg ⊢; tauto)
    have h2 : ∀ g ∈ f :: fs', g.Content = [] ∨
        (g.Content.getLast? = some '\n' ∧ g.Content ≠ ['\n']) := by
      intro g hg
      exact hnorm g (by simp at hg ⊢; tauto)
    have h3 : ∀ g ∈ fs', validatePath g.Path = .ok () ∧ trimSpace g.Path = g.Path := by
      intro g hg
      exact hv g (by simp [hg])
    have h5 : ∀ g ∈ fs', g.Path ∉ f.Path :: seen := by
      intro g hg
      simp only [List.mem_cons]
      rintro (heq | hmem)
      · have hf : f.Path ∉ fs'.map SiloFile.Path := (List.nodup_cons.1 hnd).1
        exact hf (heq ▸ List.mem_map_of_mem SiloFile.Path hg)
      · exact hseen g (by simp [hg]) hmem
    have hrec := ih f (acc ++ [SiloFile.mk cur.Path cur.Content]) (f.Path :: seen)
      (n + (contentLines cur.Content).length + 1) h1 h2 h3 ((List.nodup_cons.1 hnd).2) h5
    rw [hrec]
    simp

theorem map_normalizeLine_id (ls : List Str) (h : ∀ l ∈ ls, '\r' ∉ l) :
    ls.map normalizeLine = ls := by
  induction ls with
  | nil => rfl
  | cons x xs ih =>
    rw [List.map_cons, normalizeLine_id x (h x (by simp)),
      ih fun l hl => h l (by simp [hl])]

theorem mem_contentLines_subset (C : Str) (l : Str) (h : l ∈ contentLines C) :
    l ∈ goSplit '\n' C := by
  unfold contentLines at h
  by_cases hemp : C.isEmpty
  · rw [if_pos hemp] at h
    simp at h
  · rw [if_neg hemp] at h
    exact (List.dropLast_sublist _).subset h

/-- Parsing the serialized form of a well-formed record list recovers the
records. -/
theorem parse_writeOutput_core (delim : Str) (files : List SiloFile)
    (hd : delim ≠ [])
    (hdv : ∀ c ∈ delim, isValidDelimiterChar c = true)
    (hdh : ∀ c, delim.head? = some c → goIsSpace c = false)
    (hnodup : (files.map SiloFile.Path).Nodup)
    (hpaths : ∀ f ∈ files, validatePath f.Path = .ok () ∧ trimSpace f.Path = f.Path ∧
      '\n' ∉ f.Path ∧ '\r' ∉ f.Path)
    (hcont : ∀ f ∈ files, '\r' ∉ f.Content ∧
      (f.Content = [] ∨ f.Content.getLast? = some '\n') ∧ f.Content ≠ ['\n'])
    (hcol : ∀ f ∈ files, ∀ line ∈ goSplit '\n' f.Content, line ≠ [] →
      (delim ++ [' ']).isPrefixOf line = false) :
    ∃ d, ParseSiloFile (writeOutput delim files) = .ok ⟨files, d⟩ := by
  have hnorm2 : ∀ f ∈ files, f.Content = [] ∨ f.Content.getLast? = some '\n' :=
    fun f hf => (hcont f hf).2.1
  have hlines : ∀ l ∈ files.flatMap (chunkOf delim), '\n' ∉ l ∧ '\r' ∉ l := by
    intro l hl
    rw [List.mem_flatMap] at hl
    obtain ⟨f, hf, hlf⟩ := hl
    unfold chunkOf at hlf
    obtain ⟨hvf, htf, hnlp, hcrp⟩ := hpaths f hf
    rcases List.mem_cons.1 hlf with rfl | hlf
    · constructor
      · intro hmem
        simp only [List.mem_append, List.mem_cons] at hmem
        rcases hmem with hmem | hmem | hmem
        · have := hdv '\n' hmem
          simp [isValidDelimiterChar] at this
        · simp at hmem
        · exact hnlp hmem
      · intro hmem
        simp only [List.mem_append, List.mem_cons] at hmem
        rcases hmem with hmem | hmem | hmem
        · have := hdv '\r' hmem
          simp [isValidDelimiterChar] at this
        · simp at hmem
        · exact hcrp hmem
    · have hsub := mem_contentLines_subset f.Content l hlf
      constructor
      · intro hmem
        exact (mem_goSplit_chars '\n' f.Content l hsub '\n' hmem).2 rfl
      · intro hmem
        exact (hcont f hf).1 ((mem_goSplit_chars '\n' f.Content l hsub '\r' hmem).1)
  rw [writeOutput_eq delim files hnorm2]
  unfold ParseSiloFile
  rw [scanLines_units _ hlines]
  rw [map_normalizeLine_id _ fun l hl => (hlines l hl).2]
  cases files with
  | nil => exact ⟨[], by rfl⟩
  | cons f0 fs =>
    rcases delim with _ | ⟨c, run⟩
    · exact absurd rfl hd
    obtain ⟨hvf0, htf0, hnlp0, hcrp0⟩ := hpaths f0 (by simp)
    have hdetect := detect_run_ok c run f0.Path (hdv c (by simp)) (hdh c rfl)
      (fun d hd2 => hdv d (by simp [hd2]))
      (by rw [htf0]; exact validatePath_ok_ne_nil _ hvf0)
    rw [htf0] at hdetect
    have hblank : isBlankLine (c :: (run ++ ' ' :: f0.Path)) = false :=
      isBlank_cons_false c _ (hdh c rfl)
    refine ⟨c :: run, ?_⟩
    rw [List.flatMap_cons]
    rw [show chunkOf (c :: run) f0 ++ fs.flatMap (chunkOf (c :: run))
        = ((c :: run) ++ ' ' :: f0.Path)
          :: (contentLines f0.Content ++ fs.flatMap (chunkOf (c :: run))) by
      simp [chunkOf]]
    simp only [parseStart]
    rw [List.takeWhile_cons_of_neg (by simp [hblank])]
    simp only [List.length_nil, List.drop_zero]
    rw [hdetect]
    dsimp only
    rw [hvf0]
    dsimp only
    rw [show (([] : List Str).contains f0.Path) = false from rfl]
    simp only [Bool.false_eq_true, if_false]
    have happly := parse_chunks (c :: run) fs f0 [] [f0.Path] 2
      (by
        intro g hg line hline
        by_cases hline0 : line = []
        · subst hline0
          exact isPrefixOf_nil_false _ (by simp)
        · exact hcol g hg line (mem_contentLines_subset _ _ hline) hline0)
      (by
        intro g hg
        rcases (hcont g hg).2.1 with hc0 | hc1
        · exact Or.inl hc0
        · exact Or.inr ⟨hc1, (hcont g hg).2.2⟩)
      (by
        intro g hg
        exact ⟨(hpaths g (by simp [hg])).1, (hpaths g (by simp [hg])).2.1⟩)
      ((List.nodup_cons.1 (by simpa using hnodup)).2)
      (by
        intro g hg
        simp only [List.mem_singleton]
        intro heq
        have hf : f0.Path ∉ fs.map SiloFile.Path :=
          (List.nodup_cons.1 (by simpa using hnodup)).1
        exact hf (heq ▸ List.mem_map_of_mem SiloFile.Path hg))
    simpa using happly

theorem findCollidingFile_eq_none_of (d : Str) (fs : List SiloFile)
    (h : ∀ f ∈ fs, fileHasCollision d f = false) :
    findCollidingFile d fs = none := by
  induction fs with
  | nil => rfl
  | cons g gs ih =>
    rw [show findCollidingFile d (g :: gs)
        = if fileHasCollision d g then some g else findCollidingFile d gs from rfl]
    rw [h g (by simp)]
    simp only [Bool.false_eq_true, if_false]
    exact ih fun f hf => h f (by simp [hf])

/-- C1 amended: for every document whose records have valid, pairwise
distinct paths that are additionally whitespace-clean (unchanged by
trimming, containing no LF and no CR) and whose contents contain no CR,
are empty or newline-terminated, and are not the single newline; if the
delimiter is unset (auto-selected at write time), or explicitly set to a
non-empty token of delimiter characters whose first character is not
whitespace and which no content line collides with, then parsing the text
produced by a successful `WriteTo` yields a document with the same ordered
sequence of (path, content) pairs. -/
theorem parse_write_roundTrip :
    ∀ doc : SiloDocument,
      (doc.Files.map SiloFile.Path).Nodup →
      (∀ f ∈ doc.Files, validatePath f.Path = .ok () ∧ trimSpace f.Path = f.Path ∧
        '\n' ∉ f.Path ∧ '\r' ∉ f.Path) →
      (∀ f ∈ doc.Files, '\r' ∉ f.Content ∧
        (f.Content = [] ∨ f.Content.getLast? = some '\n') ∧ f.Content ≠ ['\n']) →
      (doc.Delimiter = [] ∨
        ((∀ c ∈ doc.Delimiter, isValidDelimiterChar c = true) ∧
          (∀ c, doc.Delimiter.head? = some c → goIsSpace c = false) ∧
          (∀ f ∈ doc.Files, ∀ line ∈ goSplit '\n' f.Content, line ≠ [] →
            (doc.Delimiter ++ [' ']).isPrefixOf line = false))) →
      ∀ out, (WriteTo doc).2 = .ok out →
        ∃ d, ParseSiloFile out = .ok ⟨doc.Files, d⟩ := by
  intro doc hnodup hpaths hcont hdelim out hout
  by_cases hdel : doc.Delimiter = []
  · rcases hf : findSafeDelimiter doc with e | delim
    · have hw : (WriteTo doc).2 = .error e := by
        unfold WriteTo
        rw [hdel]
        simp [hf]
      rw [hw] at hout
      exact absurd hout (by simp)
    · have hw : (WriteTo doc).2 = .ok (writeOutput delim doc.Files) := by
        unfold WriteTo
        rw [hdel]
        simp [hf]
      rw [hw] at hout
      simp only [Except.ok.injEq] at hout
      subst hout
      obtain ⟨hdne, hdv, hdh, hdcol⟩ := findSafe_ok_props doc delim hf
      have hcol : ∀ f ∈ doc.Files, ∀ line ∈ goSplit '\n' f.Content, line ≠ [] →
          (delim ++ [' ']).isPrefixOf line = false := by
        intro f hf2 line hline hne
        by_contra hpre
        have hpre2 : (delim ++ [' ']).isPrefixOf line = true := by
          revert hpre
          cases (delim ++ [' ']).isPrefixOf line <;> simp
        have hcoll : docCollides doc delim = true := by
          unfold docCollides
          rw [List.any_eq_true]
          refine ⟨f, hf2, ?_⟩
          rw [List.any_eq_true]
          exact ⟨line, hline, by simp [lineCollidesWith, hpre2, List.isEmpty_iff, hne]⟩
        rw [hdcol] at hcoll
        cases hcoll
      exact parse_writeOutput_core delim doc.Files hdne hdv hdh hnodup hpaths hcont hcol
  · rcases hdelim with hdel2 | ⟨hdv, hdh, hcol⟩
    · exact absurd hdel2 hdel
    · have hfc : ∀ f ∈ doc.Files, fileHasCollision doc.Delimiter f = false := by
        intro f hf2
        cases hb : fileHasCollision doc.Delimiter f with
        | false => rfl
        | true =>
          obtain ⟨line, hline, hne, hpre⟩ := (fileHasCollision_iff _ _).1 hb
          exact absurd hpre (by simp [hcol f hf2 line hline hne])
      have hnone : findCollidingFile doc.Delimiter doc.Files = none :=
        findCollidingFile_eq_none_of _ _ hfc
      have hw : (WriteTo doc).2 = .ok (writeOutput doc.Delimiter doc.Files) := by
        unfold WriteTo
        rw [show doc.Delimiter.isEmpty = false by simp [List.isEmpty_iff, hdel]]
        simp [hnone]
      rw [hw] at hout
      simp only [Except.ok.injEq] at hout
      subst hout
      exact parse_writeOutput_core doc.Delimiter doc.Files hdel hdv hdh hnodup hpaths
        hcont hcol

set_option maxRecDepth 100000 in
/-- C1 counterexample: the claim as stated fails on the document with the
single record `a.txt ↦ "\n"` (a valid, newline-terminated content) and
unset delimiter: `WriteTo` succeeds producing `"> a.txt\n\n"`, but parsing
that text yields the record `a.txt ↦ ""` — joining the single buffered
empty line gives the empty content, so the ordered (path, content) pairs
differ. -/
theorem parse_write_roundTrip_cx :
    (WriteTo ⟨[⟨"a.txt".data, ['\n']⟩], []⟩).2 = .ok "> a.txt\n\n".data
    ∧ ParseSiloFile "> a.txt\n\n".data = .ok ⟨[⟨"a.txt".data, []⟩], ['>']⟩
    ∧ validatePath "a.txt".data = .ok ()
    ∧ ([⟨"a.txt".data, ['\n']⟩] : List SiloFile) ≠ [⟨"a.txt".data, []⟩] :=
  ⟨by rfl, by rfl, by rfl, by decide⟩

set_option maxRecDepth 100000 in
/-- Witness for C1: the two-record document of the parsing scenario, with
unset delimiter, written and parsed back losslessly. -/
theorem parse_write_roundTrip_witness :
    ∃ d, ParseSiloFile "> a.txt\nhello\n\n> b.txt\nworld\n".data
      = .ok ⟨[⟨"a.txt".data, "hello\n\n".data⟩, ⟨"b.txt".data, "world\n".data⟩], d⟩ :=
  parse_write_roundTrip
    ⟨[⟨"a.txt".data, "hello\n\n".data⟩, ⟨"b.txt".data, "world\n".data⟩], []⟩
    (by decide) (by decide) (by decide) (Or.inl rfl)
    "> a.txt\nhello\n\n> b.txt\nworld\n".data (by rfl)
